import Mathlib

/-!
Verification of the Markdown block converters and metadata extractors of the
ai-knowledge-system repository, shallowly embedded from
`scripts/sync_feishu.py` and `scripts/sync_notion.py`.

Strings are modelled as lists of characters (`Line`); Python string
operations (`strip`, `startswith`, `in`, `split`, `replace`, the regular
expressions used by the scripts) are modelled by the executable functions
below, each faithful to the source's semantics including backtracking
order of the regex engine where it matters.
-/

/-- A Python string (one line of text, or a whole document). -/
abbrev Line := List Char

def lineOf (s : String) : Line := s.toList

/-- Python `str.strip()` whitespace class (ASCII part, which is all the
scripts rely on). -/
def isSp (c : Char) : Bool :=
  c == ' ' || c == '\t' || c == '\n' || c == '\r' || c == '\x0b' || c == '\x0c'

/-- Python `str.isdigit` restricted to ASCII digits, as used by the scripts. -/
def isDigit (c : Char) : Bool := '0' ≤ c && c ≤ '9'

def ltrim (l : Line) : Line := l.dropWhile isSp

def rtrim (l : Line) : Line := (l.reverse.dropWhile isSp).reverse

/-- Python `str.strip()`. -/
def strip (l : Line) : Line := rtrim (ltrim l)

/-- Python `str.startswith`: `hasPfx p l` holds when `p` is a prefix of `l`. -/
def hasPfx : Line → Line → Bool
  | [], _ => true
  | _ :: _, [] => false
  | p :: ps, c :: cs => p == c && hasPfx ps cs

/-- The suffix of `l` after the first occurrence of `pat`
(Python `l.split(pat, 1)[1]` when `pat in l`). -/
def afterFirst (pat : Line) : Line → Option Line
  | [] => if pat.isEmpty then some [] else none
  | c :: cs => if hasPfx pat (c :: cs) then some ((c :: cs).drop pat.length)
               else afterFirst pat cs

/-- Python substring containment `pat in l`. -/
def containsSub (pat l : Line) : Bool := (afterFirst pat l).isSome

/-- Python character containment `ch in l`. -/
def hasChar (ch : Char) (l : Line) : Bool := l.any (fun c => c == ch)

/-- Python `str.split(ch)` (no maxsplit): `splitCh ch [] = [[]]` just as
`''.split(ch) == ['']`. -/
def splitCh (ch : Char) : Line → List Line
  | [] => [[]]
  | c :: cs =>
    if c == ch then [] :: splitCh ch cs
    else
      match splitCh ch cs with
      | [] => [[c]]
      | x :: xs => (c :: x) :: xs

def splitNL (l : Line) : List Line := splitCh '\n' l

/-- Python `sep.join(parts)`. -/
def joinSep (sep : Line) : List Line → Line
  | [] => []
  | [x] => x
  | x :: y :: xs => x ++ sep ++ joinSep sep (y :: xs)

def joinNL (ls : List Line) : Line := joinSep ['\n'] ls

-- Marker strings used by the converters.
def ccc : Line := lineOf "```"
def h1m : Line := lineOf "# "
def h2m : Line := lineOf "## "
def h3m : Line := lineOf "### "
def bm1 : Line := lineOf "- "
def bm2 : Line := lineOf "* "
def qm : Line := lineOf "> "
def dv1 : Line := lineOf "---"
def dv2 : Line := lineOf "***"
def dv3 : Line := lineOf "___"
def dotSp : Line := lineOf ". "
def ckEmpty : Line := lineOf "[ ]"
def ckDone : Line := lineOf "[x]"
def ckEmptySp : Line := lineOf "- [ ] "
def ckDoneSp : Line := lineOf "- [x] "
def barPfx : Line := lineOf "|"
def sepBar : Line := lineOf " | "
def plainTxt : Line := lineOf "plain text"

/-- Feishu document block (`FeishuSync._markdown_to_blocks`), one constructor
per `block_type` the converter emits; `text` covers both plain paragraphs and
table rows rendered as text (both are `block_type` 2 in the source). -/
inductive FBlock where
  | code (content : Line)
  | h1 (text : Line)
  | h2 (text : Line)
  | h3 (text : Line)
  | bullet (text : Line)
  | ordered (text : Line)
  | quote (text : Line)
  | divider
  | text (content : Line)
deriving DecidableEq

/-- Scanner mode of the Feishu converter: either between blocks, or inside a
code fence accumulating the lines seen so far (the inner `while` of the
source). -/
inductive FMode where
  | norm
  | code (acc : List Line)
deriving DecidableEq

/-- Closing a Feishu code fence: the block is emitted only when the
accumulated content is not whitespace-only (`if code_content.strip():`). -/
def feishuCodeOut (acc : List Line) : List FBlock :=
  if (strip (joinNL acc)).isEmpty then [] else [FBlock.code (joinNL acc)]

/-- One non-fenced line of `FeishuSync._markdown_to_blocks`: the `elif` chain
of the source, in order.  A line whose trimmed content starts with three
backticks opens a code fence instead of emitting a block. -/
def feishuLine (l : Line) : List FBlock × FMode :=
  if (strip l).isEmpty then ([], FMode.norm)
  else if hasPfx ccc (strip l) then ([], FMode.code [])
  else if hasPfx h1m l then
    ((let t := strip (l.drop 2); if t.isEmpty then [] else [FBlock.h1 t]), FMode.norm)
  else if hasPfx h2m l then
    ((let t := strip (l.drop 3); if t.isEmpty then [] else [FBlock.h2 t]), FMode.norm)
  else if hasPfx h3m l then
    ((let t := strip (l.drop 4); if t.isEmpty then [] else [FBlock.h3 t]), FMode.norm)
  else if hasPfx bm1 (strip l) || hasPfx bm2 (strip l) then
    ((let c0 := strip ((strip l).drop 2)
      let c := if hasPfx ckEmpty c0 || hasPfx ckDone c0 then strip (c0.drop 3) else c0
      if c.isEmpty then [] else [FBlock.bullet c]), FMode.norm)
  else if !(strip l).isEmpty && isDigit ((strip l).headD ' ') && containsSub dotSp l then
    ((let c := match afterFirst dotSp l with
               | some a => strip a
               | none => strip l
      if c.isEmpty then [] else [FBlock.ordered c]), FMode.norm)
  else if hasPfx qm (strip l) then
    ((let c := strip ((strip l).drop 2); if c.isEmpty then [] else [FBlock.quote c]), FMode.norm)
  else if strip l == dv1 || strip l == dv2 || strip l == dv3 then
    ([FBlock.divider], FMode.norm)
  else if hasChar '|' (strip l) then
    ((if ((strip l).filter (fun c => !(c == '|' || c == '-' || c == ' '))).isEmpty then []
      else
        let cells := ((splitCh '|' (strip l)).map strip).filter (fun c => !c.isEmpty)
        if cells.isEmpty then [] else [FBlock.text (joinSep sepBar cells)]), FMode.norm)
  else
    -- final `elif line.strip():`, necessarily true after the first guard
    ([FBlock.text (strip l)], FMode.norm)

/-- One step of the Feishu scanner: inside a fence, a line whose trimmed
content starts with three backticks closes the block (and is consumed),
any other line is accumulated verbatim. -/
def feishuStep : FMode → Line → List FBlock × FMode
  | FMode.norm, l => feishuLine l
  | FMode.code acc, l =>
    if hasPfx ccc (strip l) then (feishuCodeOut acc, FMode.norm)
    else ([], FMode.code (acc ++ [l]))

/-- End of input: an unterminated fence still emits its accumulated block. -/
def feishuFinish : FMode → List FBlock
  | FMode.norm => []
  | FMode.code acc => feishuCodeOut acc

def feishuGo : FMode → List Line → List FBlock
  | m, [] => feishuFinish m
  | m, l :: ls =>
    match feishuStep m l with
    | (bs, m2) => bs ++ feishuGo m2 ls

/-- `FeishuSync._markdown_to_blocks`, as a function on the list of lines of
the document. -/
def feishuBlocks (lines : List Line) : List FBlock := feishuGo FMode.norm lines

/-- `FeishuSync._markdown_to_blocks` on the full document text. -/
def feishuMd (md : Line) : List FBlock := feishuBlocks (splitNL md)

/-- Notion block (`NotionSync._markdown_to_blocks`), one constructor per block
`type` emitted by the converter. -/
inductive NBlock where
  | code (content lang : Line)
  | h1 (text : Line)
  | h2 (text : Line)
  | h3 (text : Line)
  | bullet (text : Line)
  | numbered (text : Line)
  | todoItem (text : Line) (checked : Bool)
  | quote (text : Line)
  | divider
  | para (text : Line)
deriving DecidableEq

/-- Scanner mode of the Notion converter: between blocks, inside a code fence
(with the language taken from the opener), or inside a run of table lines. -/
inductive NMode where
  | norm
  | code (acc : List Line) (lang : Line)
  | table (acc : List Line)
deriving DecidableEq

def hasBar (x : Line) : Bool := hasChar '|' x

/-- One non-fenced, non-table-run line of `NotionSync._markdown_to_blocks`:
the `elif` chain of the source, in order (the to-do branch is kept even
though it is shadowed by the bullet branch above it). -/
def notionLine (l : Line) : List NBlock × NMode :=
  if hasPfx ccc l then
    ([], NMode.code [] (let lang0 := strip (l.drop 3); if lang0.isEmpty then plainTxt else lang0))
  else if hasPfx h1m l then ([NBlock.h1 (l.drop 2)], NMode.norm)
  else if hasPfx h2m l then ([NBlock.h2 (l.drop 3)], NMode.norm)
  else if hasPfx h3m l then ([NBlock.h3 (l.drop 4)], NMode.norm)
  else if hasPfx bm1 l || hasPfx bm2 l then
    ([NBlock.bullet (l.drop 2)], NMode.norm)
  else if !(l.takeWhile isDigit).isEmpty && hasPfx dotSp (l.dropWhile isDigit) then
    ([NBlock.numbered ((l.dropWhile isDigit).drop 2)], NMode.norm)
  else if hasPfx ckEmptySp l || hasPfx ckDoneSp l then
    -- to-do branch: unreachable, shadowed by the bullet branch
    ([NBlock.todoItem (l.drop 6) (hasPfx ckDoneSp l)], NMode.norm)
  else if hasPfx qm l then ([NBlock.quote (l.drop 2)], NMode.norm)
  else if strip l == dv1 || strip l == dv2 || strip l == dv3 then
    ([NBlock.divider], NMode.norm)
  else if hasChar '|' l && hasPfx barPfx (strip l) then
    ([], NMode.table [l])
  else if !(strip l).isEmpty then ([NBlock.para l], NMode.norm)
  else ([], NMode.norm)

/-- One step of the Notion scanner.  Inside a fence, a line starting with
three backticks closes the block (and is consumed).  Inside a table run, a
line containing a bar is accumulated; any other line closes the run and is
reprocessed as a normal line (the source `continue`s without advancing). -/
def notionStep : NMode → Line → List NBlock × NMode
  | NMode.norm, l => notionLine l
  | NMode.code acc lang, l =>
    if hasPfx ccc l then ([NBlock.code (joinNL acc) lang], NMode.norm)
    else ([], NMode.code (acc ++ [l]) lang)
  | NMode.table acc, l =>
    if hasBar l then ([], NMode.table (acc ++ [l]))
    else
      match notionLine l with
      | (bs, m2) => (NBlock.code (joinNL acc) plainTxt :: bs, m2)

/-- End of input: an unterminated fence or table run still emits its block. -/
def notionFinish : NMode → List NBlock
  | NMode.norm => []
  | NMode.code acc lang => [NBlock.code (joinNL acc) lang]
  | NMode.table acc => [NBlock.code (joinNL acc) plainTxt]

def notionGo : NMode → List Line → List NBlock
  | m, [] => notionFinish m
  | m, l :: ls =>
    match notionStep m l with
    | (bs, m2) => bs ++ notionGo m2 ls

/-- `NotionSync._markdown_to_blocks`, as a function on the list of lines of
the document. -/
def notionBlocks (lines : List Line) : List NBlock := notionGo NMode.norm lines

/-- `NotionSync._markdown_to_blocks` on the full document text. -/
def notionMd (md : Line) : List NBlock := notionBlocks (splitNL md)

-- ==================== parse_archive_file ====================

-- Label strings used by the extractor.
def dLbl1 : Line := lineOf "**日期**"
def dLbl2 : Line := lineOf "日期："
def tagLbl : Line := lineOf "标签"
def sumLbl : Line := lineOf "一句话总结"
def insLbl : Line := lineOf "核心洞见"
def ckU : Line := lineOf "- [ ]"
def ckX : Line := lineOf "- [x]"

/-- One attempt of the regex `(\d{4}-\d{2}-\d{2})` at the start of `l`:
four digits, a hyphen, two digits, a hyphen, two digits. -/
def tryDateAt (l : Line) : Option Line :=
  match l with
  | a :: b :: c :: d :: e :: f :: g :: h :: i :: j :: _ =>
    if isDigit a && isDigit b && isDigit c && isDigit d && e == '-'
       && isDigit f && isDigit g && h == '-' && isDigit i && isDigit j
    then some [a, b, c, d, e, f, g, h, i, j] else none
  | _ => none

/-- `re.search(r'(\d{4}-\d{2}-\d{2})', l)`: the first date-shaped substring
of `l`, scanning left to right. -/
def matchDate : Line → Option Line
  | [] => none
  | c :: cs =>
    match tryDateAt (c :: cs) with
    | some d => some d
    | none => matchDate cs

/-- A character can extend the captured run of `#([^\s#]+)`. -/
def tagChar (d : Char) : Bool := !isSp d && !(d == '#')

/-- Scanner for `re.findall(r'#([^\s#]+)', l)`: the state is `none` while
looking for a `#`, and `some acc` (the run read so far, reversed) right
after one.  A run ends at whitespace, at another `#` (which starts the next
attempt, matches being non-overlapping), or at end of input; empty runs
match nothing. -/
def findTagsGo : Option Line → Line → List Line
  | none, [] => []
  | some acc, [] => if acc.isEmpty then [] else [acc.reverse]
  | none, c :: cs =>
    if c == '#' then findTagsGo (some []) cs else findTagsGo none cs
  | some acc, c :: cs =>
    if tagChar c then findTagsGo (some (c :: acc)) cs
    else if acc.isEmpty then
      if c == '#' then findTagsGo (some []) cs else findTagsGo none cs
    else
      acc.reverse :: (if c == '#' then findTagsGo (some []) cs else findTagsGo none cs)

/-- `re.findall(r'#([^\s#]+)', l)`: every maximal nonempty run of
non-whitespace, non-`#` characters immediately following a `#`, left to
right, non-overlapping. -/
def findTags (l : Line) : List Line := findTagsGo none l

/-- `re.sub(r'^\d+\.\s*', '', t)`: strip a leading digit run followed by a
dot and any whitespace; leave `t` unchanged when the pattern does not
match at the start. -/
def stripNum (t : Line) : Line :=
  let ds := t.takeWhile isDigit
  let rest := t.drop ds.length
  if !ds.isEmpty && rest.headD ' ' == '.' then (rest.drop 1).dropWhile isSp
  else t

/-- Two consecutive digits (one attempt of `\d{2}` with what follows). -/
def try2 (l : Line) : Option (Line × Line) :=
  match l with
  | a :: b :: r => if isDigit a && isDigit b then some ([a, b], r) else none
  | _ => none

/-- The greedy `-?` of the filename-stem date regex. -/
def skipHyph (l : Line) : Line :=
  match l with
  | '-' :: r => r
  | _ => l

/-- One attempt of `(\d{4})-?(\d{2})-?(\d{2})` at the start of `l`,
returning `group(1)-group(2)-group(3)` as assembled by the source. -/
def tryStemAt (l : Line) : Option Line :=
  match l with
  | a :: b :: c :: d :: r =>
    if isDigit a && isDigit b && isDigit c && isDigit d then
      match try2 (skipHyph r) with
      | some (mm, r2) =>
        match try2 (skipHyph r2) with
        | some (dd, _) => some ([a, b, c, d] ++ '-' :: mm ++ '-' :: dd)
        | none => none
      | none => none
    else none
  | _ => none

/-- `re.search(r'(\d{4})-?(\d{2})-?(\d{2})', stem)` followed by the
`f"{g1}-{g2}-{g3}"` reassembly: the filename-stem date fallback. -/
def stemDate : Line → Option Line
  | [] => none
  | c :: cs =>
    match tryStemAt (c :: cs) with
    | some d => some d
    | none => stemDate cs

/-- The condition under which a line may set the summary
(`line_stripped and not startswith('#') and not startswith('---')`),
applied to the stripped line. -/
def sumQual (s : Line) : Bool :=
  !s.isEmpty && !(hasPfx (lineOf "#") s) && !(hasPfx dv1 s)

/-- Mutable state of the single `for` loop of `parse_archive_file`. -/
structure AState where
  date : Option Line
  tags : List Line
  summary : Line
  inSum : Bool
  inIns : Bool
  insights : List Line
  pending : Nat
deriving DecidableEq

def archInit : AState :=
  { date := none, tags := [], summary := [], inSum := false,
    inIns := false, insights := [], pending := 0 }

/-- Date part of the loop body of `parse_archive_file`: a line whose
stripped text starts with a date label and contains a date-shaped substring
overwrites the date. -/
def archDate (s : AState) (line : Line) : AState :=
  if hasPfx dLbl1 (strip line) || hasPfx dLbl2 (strip line) then
    match matchDate line with
    | some d => { s with date := some d }
    | none => s
  else s

/-- Tag part of the loop body: a line containing the tag label and a `#`
whose `findTags` is nonempty overwrites the tag list. -/
def archTag (s : AState) (line : Line) : AState :=
  if containsSub tagLbl line && hasChar '#' line then
    if (findTags line).isEmpty then s else { s with tags := findTags line }
  else s

/-- Insight-section handling and pending-checkbox count of the loop body,
on the stripped line (reached only when neither label `continue` fired). -/
def archIns (s : AState) (ls : Line) : AState :=
  let s4 :=
    if s.inIns then
      if hasPfx dv1 ls then { s with inIns := false }
      else if hasPfx h2m ls && !(hasPfx (lineOf "###") ls) then { s with inIns := false }
      else if hasPfx (lineOf "###") ls then
        let t := stripNum (strip (ls.drop 3))
        if t.isEmpty then s else { s with insights := s.insights ++ [t] }
      else s
    else s
  if hasPfx ckU ls then { s4 with pending := s4.pending + 1 }
  else s4

/-- Remainder of the loop body: the summary-label check (whose `continue`
skips the rest of the body), the summary assignment, the insight-label
check (whose `continue` skips the rest), then the insight-section handling
and the pending count, in source order. -/
def archRest (s : AState) (line : Line) : AState :=
  if containsSub sumLbl line then { s with inSum := true }
  else
    let s3 := if s.inSum && sumQual (strip line) then
                { s with summary := strip line, inSum := false }
              else s
    if containsSub insLbl line then { s3 with inIns := true }
    else archIns s3 (strip line)

/-- One iteration of the loop body of `parse_archive_file`, in source order:
date check, tag check, then the rest of the body. -/
def archStep (s : AState) (line : Line) : AState :=
  archRest (archTag (archDate s line) line) line

/-- Result record of `parse_archive_file` (`日期`, `主题`, `一句话总结`,
`标签`, `核心洞见`, `待跟进数`). -/
structure Archive where
  date : Line
  topic : Line
  summary : Line
  tags : List Line
  insights : Line
  pending : Nat
deriving DecidableEq

/-- `parse_archive_file` on the file text, the filename stem and the
current date (the opaque `datetime.now().strftime("%Y-%m-%d")`). -/
def parseArchive (content stem today : Line) : Archive :=
  let s := (splitNL content).foldl archStep archInit
  { date := match s.date with
            | some d => d
            | none => match stemDate stem with
                      | some d => d
                      | none => today,
    topic := stem,
    summary := s.summary,
    tags := s.tags,
    insights := joinNL (s.insights.take 3),
    pending := s.pending }

-- Standalone single-purpose scans (§4.2 of the design describes the fused
-- loop as equivalent to independent scans; these are those scans).

/-- Step of the standalone date scan. -/
def dStep (a : Option Line) (l : Line) : Option Line :=
  if hasPfx dLbl1 (strip l) || hasPfx dLbl2 (strip l) then
    match matchDate l with
    | some d => some d
    | none => a
  else a

/-- The date scan on its own: every line whose stripped text starts with a
date label and contains a date-shaped substring overwrites the date. -/
def dateScanFrom (acc : Option Line) (lines : List Line) : Option Line :=
  lines.foldl dStep acc

def dateScan (lines : List Line) : Option Line := dateScanFrom none lines

/-- Step of the standalone tag scan. -/
def tStep (a : List Line) (l : Line) : List Line :=
  if containsSub tagLbl l && hasChar '#' l then
    if (findTags l).isEmpty then a else findTags l
  else a

/-- The tag scan on its own: every line containing the tag label and a `#`
whose `findTags` is nonempty overwrites the tag list. -/
def tagScanFrom (acc : List Line) (lines : List Line) : List Line :=
  lines.foldl tStep acc

def tagScan (lines : List Line) : List Line := tagScanFrom [] lines

/-- Step of the standalone summary scan (armed flag, summary so far). -/
def sStep (a : Bool × Line) (l : Line) : Bool × Line :=
  if containsSub sumLbl l then (true, a.2)
  else if a.1 && sumQual (strip l) then (false, strip l)
  else a

/-- The summary scan on its own: a line containing the summary label arms
the scanner (and is skipped); while armed, the next non-empty line that
does not start with `#` or `---` is stored and disarms it. -/
def sumScanFrom (st : Bool × Line) (lines : List Line) : Bool × Line :=
  lines.foldl sStep st

def sumScan (lines : List Line) : Line := (sumScanFrom (false, []) lines).2

-- ==================== parse_threads_file ====================

def kwFollow : Line := lineOf "待跟进"
def kwIdea1 : Line := lineOf "想法"
def kwIdea2 : Line := lineOf "未成型"
def kwHypo1 : Line := lineOf "假设"
def kwHypo2 : Line := lineOf "验证"
def kwDig1 : Line := lineOf "深挖"
def kwDig2 : Line := lineOf "问题"
def kwDone1 : Line := lineOf "完成"
def kwDone2 : Line := lineOf "放弃"
def catFollow : Line := lineOf "待跟进事项"
def catIdea : Line := lineOf "未成型想法"
def catHypo : Line := lineOf "待验证假设"
def catDebt : Line := lineOf "技术债务"
def catOther : Line := lineOf "其他"
def catDone : Line := lineOf "已完成"
def stPending : Line := lineOf "待处理"
def prHigh : Line := lineOf "高"
def prMid : Line := lineOf "中"
def prLow : Line := lineOf "低"

/-- The five `分类` options declared by `TABLES_CONFIG["threads"]` for the
thread table. -/
def fiveCategories : List Line := [catFollow, catIdea, catHypo, catDebt, catOther]

/-- The `elif` keyword chain mapping a `##` section heading to the tracked
category (first match wins, default `其他`). -/
def categoryOf (c : Line) : Line :=
  if containsSub kwFollow c then catFollow
  else if containsSub kwIdea1 c || containsSub kwIdea2 c then catIdea
  else if containsSub kwHypo1 c || containsSub kwHypo2 c then catHypo
  else if containsSub kwDig1 c || containsSub kwDig2 c then catFollow
  else if containsSub kwDone1 c || containsSub kwDone2 c then catDone
  else catOther

def isOpenP (c : Char) : Bool := c == '（' || c == '('
def isCloseP (c : Char) : Bool := c == '）' || c == ')'
def isColonC (c : Char) : Bool := c == '：' || c == ':'
def laiZi : Line := lineOf "来自"

/-- The lazy `(.+?)[）)]` once its first character is consumed: grow the
capture (held reversed in `acc`) until the first closing parenthesis. -/
def capAfter : Line → Line → Option Line
  | _, [] => none
  | acc, d :: ds => if isCloseP d then some acc.reverse else capAfter (d :: acc) ds

/-- `(.+?)[）)]`: at least one character, then everything up to the first
closing parenthesis. -/
def tryCap : Line → Option Line
  | [] => none
  | c :: cs => capAfter [c] cs

/-- The greedy `\s*` with backtracking: try consuming `k` spaces first,
then fewer, until the rest of the pattern matches. -/
def trySp : Nat → Line → Option Line
  | 0, r => tryCap r
  | k + 1, r =>
    match tryCap (r.drop (k + 1)) with
    | some v => some v
    | none => trySp k r

/-- The tail `[：:]?\s*(.+?)[）)]` of the source-marker regex, with the
engine's preference order: the optional colon is consumed greedily, with
fallback to not consuming it. -/
def tailMatch (r : Line) : Option Line :=
  match r with
  | [] => none
  | c :: cs =>
    if isColonC c then
      match trySp ((cs.takeWhile isSp).length) cs with
      | some v => some v
      | none => tryCap (c :: cs)
    else trySp (((c :: cs).takeWhile isSp).length) (c :: cs)

/-- `re.search(r'[（(]来自[：:]?\s*(.+?)[）)]', item)`: leftmost match,
returning the capture group. -/
def searchFrom : Line → Option Line
  | [] => none
  | c :: cs =>
    if isOpenP c && hasPfx laiZi cs then
      match tailMatch (cs.drop 2) with
      | some v => some v
      | none => searchFrom cs
    else searchFrom cs

/-- `.+?[）)]` as consumed by `re.sub`: skip at least one character, then
everything through the first closing parenthesis, returning the rest. -/
def skipCloser : Line → Option Line
  | [] => none
  | d :: ds => if isCloseP d then some ds else skipCloser ds

def dropMatch : Line → Option Line
  | [] => none
  | _ :: ds => skipCloser ds

/-- `re.sub(r'[（(]来自.+?[）)]', '', item)` with explicit fuel (any fuel at
least the length of the text gives the fixpoint): delete every
non-overlapping match, scanning left to right. -/
def subFromF : Nat → Line → Line
  | 0, l => l
  | _ + 1, [] => []
  | fuel + 1, c :: cs =>
    if isOpenP c && hasPfx laiZi cs then
      match dropMatch (cs.drop 2) with
      | some rest => subFromF fuel rest
      | none => c :: subFromF fuel cs
    else c :: subFromF fuel cs

def subFrom (l : Line) : Line := subFromF l.length l

/-- One thread record (`标题`, `分类`, `状态`, `优先级`, `内容`, `来源`,
`创建时间`). -/
structure Thread where
  title : Line
  category : Line
  status : Line
  priority : Line
  content : Line
  source : Line
  created : Line
deriving DecidableEq

/-- The `'高' in str(priority)` / `'低' in str(priority)` normalization. -/
def normPrio (p : Line) : Line :=
  if containsSub prHigh p then prHigh
  else if containsSub prLow p then prLow
  else prMid

/-- The table-header keyword test of `parse_threads_file`
(`'日期' in line or '事项' in ... or '问题' in line`). -/
def headerKw (s : Line) : Bool :=
  containsSub (lineOf "日期") s || containsSub (lineOf "事项") s
  || containsSub kwIdea1 s || containsSub kwHypo1 s || containsSub kwDig2 s

/-- The loop of `parse_threads_file`: state is the current category, the
in-table flag and the (never re-read) parsed table header, in source
order over the five `elif` branches. -/
def threadsGo (today : Line) : Line → Bool → List Line → List Line → List Thread
  | _, _, _, [] => []
  | cat, inTab, headers, l :: ls =>
    let s := strip l
    if hasPfx h2m s then
      threadsGo today (categoryOf (strip (s.drop 3))) false [] ls
    else if hasChar '|' s && headerKw s then
      threadsGo today cat true (((splitCh '|' s).map strip).filter (fun c => !c.isEmpty)) ls
    else if hasPfx barPfx s && containsSub dv1 s then
      threadsGo today cat inTab headers ls
    else if inTab && hasPfx barPfx s && hasChar '|' s then
      let cells := ((splitCh '|' s).map strip).filter (fun c => !c.isEmpty)
      match cells with
      | c0 :: c1 :: restCells =>
        if !c0.isEmpty && !c1.isEmpty then
          if cells.all (fun c => c.isEmpty || c == barPfx) then
            threadsGo today cat inTab headers ls
          else
            let dateStr := if c0.isEmpty then today else c0
            let title := c1
            let source := restCells.headD []
            let nextAct := restCells.getD 1 []
            let prio := normPrio (restCells.getD 2 prMid)
            if title.isEmpty then threadsGo today cat inTab headers ls
            else
              { title := title, category := cat,
                status := if cat == catDone then catDone else stPending,
                priority := prio,
                content := if nextAct.isEmpty then title
                           else title ++ lineOf "\n下一步: " ++ nextAct,
                source := source, created := dateStr }
              :: threadsGo today cat inTab headers ls
        else threadsGo today cat inTab headers ls
      | _ => threadsGo today cat inTab headers ls
    else if hasPfx ckU s || hasPfx ckX s then
      let isDone := hasPfx ckX s
      let item := strip (s.drop 5)
      let ts := if containsSub (lineOf "（来自") item || containsSub (lineOf "(来自") item then
                  match searchFrom item with
                  | some src => (strip (subFrom item), src)
                  | none => (item, [])
                else (item, [])
      { title := ts.1, category := cat,
        status := if isDone then catDone else stPending,
        priority := prMid, content := item, source := ts.2, created := today }
      :: threadsGo today cat inTab headers ls
    else threadsGo today cat inTab headers ls

/-- `parse_threads_file` on the file text and the current date (the opaque
`datetime.now().strftime("%Y-%m-%d")`). -/
def parseThreads (content today : Line) : List Thread :=
  threadsGo today catOther false [] (splitNL content)

-- ==================== parse_projects_file ====================

def kwStatus : Line := lineOf "状态"
def kwMod : Line := lineOf "最近修改"
def kwGit : Line := lineOf "Git"
def kwTodo : Line := lineOf "待办"
def bStar : Line := lineOf "- **"
def exAuto : Line := lineOf "## 自动"
def exManual : Line := lineOf "## 主动"

/-- The suffix after the first full-width colon `：` that is followed by at
least one character — what `.*?：(.+)$` captures after the label, engine
preference order (the lazy `.*?` stops at the earliest colon whose `(.+)$`
is nonempty). -/
def firstColonTail : Line → Option Line
  | [] => none
  | c :: cs => if c == '：' && !cs.isEmpty then some cs else firstColonTail cs

/-- `re.search(r'<label>.*?：(.+)$', s)` followed by `.group(1).strip()`. -/
def labelValue (lbl s : Line) : Option Line :=
  match afterFirst lbl s with
  | none => none
  | some r =>
    match firstColonTail r with
    | none => none
    | some v => some (strip v)

/-- One project record (`项目名`, `状态`, `最近修改`, `Git提交数`, `待办`). -/
structure Project where
  name : Line
  status : Line
  lastMod : Line
  commits : Line
  todo : Line
deriving DecidableEq

def newProj (nm : Line) : Project :=
  { name := nm, status := lineOf "-", lastMod := lineOf "-",
    commits := lineOf "-", todo := lineOf "无" }

/-- The `elif` chain updating the accumulating project from one `- **` line
(label substring anywhere in the stripped line, first matching label wins,
no update when the regex finds no colon-with-content after the label). -/
def projStep (p : Project) (s : Line) : Project :=
  if containsSub kwStatus s then
    match labelValue kwStatus s with
    | some v => { p with status := v }
    | none => p
  else if containsSub kwMod s then
    match labelValue kwMod s with
    | some v => { p with lastMod := v }
    | none => p
  else if containsSub kwGit s then
    match labelValue kwGit s with
    | some v => { p with commits := v }
    | none => p
  else if containsSub kwTodo s then
    match labelValue kwTodo s with
    | some v => { p with todo := v }
    | none => p
  else p

/-- The loop of `parse_projects_file`: a `##` heading (other than the two
excluded section markers) flushes the accumulating project and opens a new
one; `- **` lines update it; end of input flushes the last one. -/
def projFold : Option Project → List Line → List Project
  | cur, [] =>
    (match cur with
     | some p => [p]
     | none => [])
  | cur, l :: ls =>
    let s := strip l
    if hasPfx h2m s && !(hasPfx exAuto s) && !(hasPfx exManual s) then
      (match cur with
       | some p => [p]
       | none => []) ++ projFold (some (newProj (strip (s.drop 3)))) ls
    else
      match cur with
      | some p =>
        if hasPfx bStar s then projFold (some (projStep p s)) ls
        else projFold (some p) ls
      | none => projFold none ls

/-- `parse_projects_file` on the file text. -/
def parseProjects (content : Line) : List Project := projFold none (splitNL content)

-- ==================== toolkit lemmas about the string model ====================

lemma ltrim_cons_not_sp {c : Char} {t : Line} (h : isSp c = false) :
    ltrim (c :: t) = c :: t := by
  simp [ltrim, List.dropWhile_cons, h]

lemma rtrim_pfx (x : Line) : ∃ u, x = rtrim x ++ u ∧ u.all isSp = true := by
  refine ⟨(x.reverse.takeWhile isSp).reverse, ?_, ?_⟩
  · have h := congrArg List.reverse (List.takeWhile_append_dropWhile isSp x.reverse)
    simp only [List.reverse_append, List.reverse_reverse] at h
    rw [rtrim]
    exact h.symm
  · rw [List.all_eq_true]
    intro a ha
    rw [List.mem_reverse] at ha
    exact List.mem_takeWhile_imp ha

lemma all_sp_of_rtrim_nil {x : Line} (h : rtrim x = []) : x.all isSp = true := by
  have h2 : x.reverse.dropWhile isSp = [] := by
    have := congrArg List.reverse h
    simpa [rtrim] using this
  rw [List.dropWhile_eq_nil_iff] at h2
  rw [List.all_eq_true]
  intro a ha
  exact h2 a (List.mem_reverse.mpr ha)

lemma dropWhile_head_false (p : α → Bool) :
    ∀ (l : List α) (c : α) (cs : List α), l.dropWhile p = c :: cs → p c = false := by
  intro l
  induction l with
  | nil => intro c cs h; simp at h
  | cons e es ih =>
    intro c cs h
    by_cases he : p e = true
    · rw [List.dropWhile_cons_of_pos he] at h
      exact ih c cs h
    · rw [List.dropWhile_cons_of_neg (by simpa using he)] at h
      injection h with h1 _
      rw [h1] at he
      simpa using he

lemma ltrim_nil_of_all_sp {l : Line} (h : (ltrim l).all isSp = true) : ltrim l = [] := by
  cases hl : ltrim l with
  | nil => rfl
  | cons c cs =>
    exfalso
    have hc : isSp c = false := dropWhile_head_false isSp l c cs hl
    rw [hl, List.all_eq_true] at h
    have h2 := h c (by simp)
    rw [hc] at h2
    simp at h2

lemma all_sp_of_strip_nil {l : Line} (h : strip l = []) : l.all isSp = true := by
  have h1 : (ltrim l).all isSp = true := all_sp_of_rtrim_nil h
  have h2 : ltrim l = [] := ltrim_nil_of_all_sp h1
  have h3 : l.takeWhile isSp = l := by
    have := List.takeWhile_append_dropWhile isSp l
    rw [show l.dropWhile isSp = [] from h2] at this
    simpa using this
  rw [List.all_eq_true]
  intro a ha
  rw [← h3] at ha
  exact List.mem_takeWhile_imp ha

lemma strip_cons_not_sp {c : Char} {t : Line} (h : isSp c = false) :
    ∃ t2, strip (c :: t) = c :: t2 := by
  have h1 : strip (c :: t) = rtrim (c :: t) := by
    rw [strip, ltrim_cons_not_sp h]
  have h2 : rtrim (c :: t) ≠ [] := by
    intro hn
    have := all_sp_of_rtrim_nil hn
    rw [List.all_eq_true] at this
    have := this c (by simp)
    rw [h] at this
    exact Bool.false_ne_true this
  obtain ⟨u, hu, _⟩ := rtrim_pfx (c :: t)
  cases hr : rtrim (c :: t) with
  | nil => exact absurd hr h2
  | cons x xs =>
    rw [hr] at hu
    injection hu with hx _
    exact ⟨xs, by rw [h1, hr, hx]⟩

lemma hasPfx_head_cons {p x : Line} (hp : p ≠ []) (h : hasPfx p x = true) :
    ∃ t2, x = p.headD ' ' :: t2 := by
  cases p with
  | nil => exact absurd rfl hp
  | cons a ps =>
    cases x with
    | nil => simp [hasPfx] at h
    | cons c t =>
      simp only [hasPfx, Bool.and_eq_true, beq_iff_eq] at h
      exact ⟨t, by simp [h.1]⟩

lemma hasPfx_false_head {q : Line} {c : Char} {t : Line} (hq : q ≠ [])
    (hne : q.headD ' ' ≠ c) : hasPfx q (c :: t) = false := by
  cases q with
  | nil => exact absurd rfl hq
  | cons b qs =>
    simp only [List.headD_cons] at hne
    simp [hasPfx, hne]

lemma sp_ne_of_not_sp {d c : Char} (hd : isSp d = false) (hc : isSp c = true) : d ≠ c := by
  intro h
  rw [h, hc] at hd
  simp at hd

lemma hasPfx_raw_false {l q : Line} {c : Char} {t : Line} (hs : strip l = c :: t)
    (hq : q ≠ []) (hd : isSp (q.headD ' ') = false) (hne : q.headD ' ' ≠ c) :
    hasPfx q l = false := by
  cases l with
  | nil => simp [strip, ltrim, rtrim] at hs
  | cons e es =>
    by_cases he : isSp e = true
    · exact hasPfx_false_head hq (sp_ne_of_not_sp hd he)
    · have h1 : strip (e :: es) = rtrim (e :: es) := by
        rw [strip, ltrim_cons_not_sp (by simpa using he)]
      obtain ⟨u, hu, _⟩ := rtrim_pfx (e :: es)
      rw [← h1, hs] at hu
      have hec : e = c := by
        simpa using congrArg (fun z => z.headD ' ') hu
      exact hasPfx_false_head hq (hec ▸ hne)

lemma hasPfx_all_sp_false {l q : Line} (h : l.all isSp = true) (hq : q ≠ [])
    (hd : isSp (q.headD ' ') = false) : hasPfx q l = false := by
  cases l with
  | nil =>
    cases q with
    | nil => exact absurd rfl hq
    | cons b qs => rfl
  | cons c cs =>
    rw [List.all_eq_true] at h
    exact hasPfx_false_head hq (sp_ne_of_not_sp hd (h c (by simp)))

lemma sp_not_digit {c : Char} (h : isSp c = true) : isDigit c = false := by
  simp only [isSp, Bool.or_eq_true, beq_iff_eq] at h
  rcases h with ((((rfl | rfl) | rfl) | rfl) | rfl) | rfl <;> decide

lemma takeWhile_digit_all_sp {l : Line} (h : l.all isSp = true) :
    l.takeWhile isDigit = [] := by
  cases l with
  | nil => rfl
  | cons c cs =>
    rw [List.all_eq_true] at h
    exact List.takeWhile_cons_of_neg (by simp [sp_not_digit (h c (by simp))])

lemma mutual_pfx : ∀ (x p q : Line), hasPfx p x = true → hasPfx q x = true →
    hasPfx p q = true ∨ hasPfx q p = true := by
  intro x
  induction x with
  | nil =>
    intro p q hp hq
    cases p with
    | nil => left; rfl
    | cons a ps => simp [hasPfx] at hp
  | cons c cs ih =>
    intro p q hp hq
    cases p with
    | nil => left; rfl
    | cons a ps =>
      cases q with
      | nil => right; rfl
      | cons b qs =>
        simp only [hasPfx, Bool.and_eq_true, beq_iff_eq] at hp hq
        rcases ih ps qs hp.2 hq.2 with h | h
        · left; simp [hasPfx, hp.1, hq.1, h]
        · right; simp [hasPfx, hp.1, hq.1, h]

lemma hasPfx_ne_nil_not_empty {p x : Line} (hp : p ≠ []) (h : hasPfx p x = true) :
    x.isEmpty = false := by
  obtain ⟨t2, ht⟩ := hasPfx_head_cons hp h
  rw [ht]
  rfl

lemma feishuGo_cons (m : FMode) (l : Line) (ls : List Line) :
    feishuGo m (l :: ls) = (feishuStep m l).1 ++ feishuGo (feishuStep m l).2 ls := by
  cases h : feishuStep m l
  simp [feishuGo, h]

lemma notionGo_cons (m : NMode) (l : Line) (ls : List Line) :
    notionGo m (l :: ls) = (notionStep m l).1 ++ notionGo (notionStep m l).2 ls := by
  cases h : notionStep m l
  simp [notionGo, h]

-- Projections of the fused loop body onto the single-purpose scan steps.

lemma archDate_date (s : AState) (l : Line) : (archDate s l).date = dStep s.date l := by
  unfold archDate dStep
  split
  · cases matchDate l <;> rfl
  · rfl

lemma archDate_tags (s : AState) (l : Line) : (archDate s l).tags = s.tags := by
  unfold archDate
  split
  · cases matchDate l <;> rfl
  · rfl

lemma archDate_inSum (s : AState) (l : Line) : (archDate s l).inSum = s.inSum := by
  unfold archDate
  split
  · cases matchDate l <;> rfl
  · rfl

lemma archDate_summary (s : AState) (l : Line) : (archDate s l).summary = s.summary := by
  unfold archDate
  split
  · cases matchDate l <;> rfl
  · rfl

lemma archTag_tags (s : AState) (l : Line) : (archTag s l).tags = tStep s.tags l := by
  unfold archTag tStep
  split_ifs <;> rfl

lemma archTag_date (s : AState) (l : Line) : (archTag s l).date = s.date := by
  unfold archTag
  split_ifs <;> rfl

lemma archTag_inSum (s : AState) (l : Line) : (archTag s l).inSum = s.inSum := by
  unfold archTag
  split_ifs <;> rfl

lemma archTag_summary (s : AState) (l : Line) : (archTag s l).summary = s.summary := by
  unfold archTag
  split_ifs <;> rfl

lemma archIns_date (s : AState) (ls : Line) : (archIns s ls).date = s.date := by
  unfold archIns
  dsimp only []
  split_ifs <;> rfl

lemma archIns_tags (s : AState) (ls : Line) : (archIns s ls).tags = s.tags := by
  unfold archIns
  dsimp only []
  split_ifs <;> rfl

lemma archIns_inSum (s : AState) (ls : Line) : (archIns s ls).inSum = s.inSum := by
  unfold archIns
  dsimp only []
  split_ifs <;> rfl

lemma archIns_summary (s : AState) (ls : Line) : (archIns s ls).summary = s.summary := by
  unfold archIns
  dsimp only []
  split_ifs <;> rfl

lemma archRest_date (s : AState) (l : Line) : (archRest s l).date = s.date := by
  unfold archRest
  by_cases h1 : containsSub sumLbl l = true
  · simp [h1]
  · by_cases h2 : (s.inSum && sumQual (strip l)) = true
    · by_cases h3 : containsSub insLbl l = true
      · simp [h1, h2, h3]
      · simp [h1, h2, h3, archIns_date]
    · by_cases h3 : containsSub insLbl l = true
      · simp [h1, h2, h3]
      · simp [h1, h2, h3, archIns_date]

lemma archRest_tags (s : AState) (l : Line) : (archRest s l).tags = s.tags := by
  unfold archRest
  by_cases h1 : containsSub sumLbl l = true
  · simp [h1]
  · by_cases h2 : (s.inSum && sumQual (strip l)) = true
    · by_cases h3 : containsSub insLbl l = true
      · simp [h1, h2, h3]
      · simp [h1, h2, h3, archIns_tags]
    · by_cases h3 : containsSub insLbl l = true
      · simp [h1, h2, h3]
      · simp [h1, h2, h3, archIns_tags]

lemma archRest_sum (s : AState) (l : Line) :
    ((archRest s l).inSum, (archRest s l).summary) = sStep (s.inSum, s.summary) l := by
  unfold archRest sStep
  by_cases h1 : containsSub sumLbl l = true
  · simp [h1]
  · by_cases h2 : (s.inSum && sumQual (strip l)) = true
    · by_cases h3 : containsSub insLbl l = true
      · simp [h1, h2, h3]
      · simp [h1, h2, h3, archIns_inSum, archIns_summary]
    · by_cases h3 : containsSub insLbl l = true
      · simp [h1, h2, h3]
      · simp [h1, h2, h3, archIns_inSum, archIns_summary]

lemma archStep_date (s : AState) (l : Line) : (archStep s l).date = dStep s.date l := by
  unfold archStep
  rw [archRest_date, archTag_date, archDate_date]

lemma archStep_tags (s : AState) (l : Line) : (archStep s l).tags = tStep s.tags l := by
  unfold archStep
  rw [archRest_tags, archTag_tags, archDate_tags]

lemma archStep_sum (s : AState) (l : Line) :
    ((archStep s l).inSum, (archStep s l).summary) = sStep (s.inSum, s.summary) l := by
  unfold archStep
  rw [archRest_sum, archTag_inSum, archTag_summary, archDate_inSum, archDate_summary]

lemma archFold_date (lines : List Line) :
    ∀ s : AState, (lines.foldl archStep s).date = dateScanFrom s.date lines := by
  induction lines with
  | nil => intro s; rfl
  | cons l ls ih =>
    intro s
    rw [List.foldl_cons, ih, dateScanFrom, dateScanFrom, List.foldl_cons, archStep_date]

lemma archFold_tags (lines : List Line) :
    ∀ s : AState, (lines.foldl archStep s).tags = tagScanFrom s.tags lines := by
  induction lines with
  | nil => intro s; rfl
  | cons l ls ih =>
    intro s
    rw [List.foldl_cons, ih, tagScanFrom, tagScanFrom, List.foldl_cons, archStep_tags]

lemma archFold_sum (lines : List Line) :
    ∀ s : AState,
      ((lines.foldl archStep s).inSum, (lines.foldl archStep s).summary)
        = sumScanFrom (s.inSum, s.summary) lines := by
  induction lines with
  | nil => intro s; rfl
  | cons l ls ih =>
    intro s
    rw [List.foldl_cons, ih, sumScanFrom, sumScanFrom, List.foldl_cons, archStep_sum]

-- ==================== helper lemmas about the converters ====================

lemma feishuLine_fence {l : Line} (h : hasPfx ccc (strip l) = true) :
    feishuLine l = ([], FMode.code []) := by
  obtain ⟨t2, ht⟩ := hasPfx_head_cons (p := ccc) (by decide) h
  have g1 : ¬((strip l).isEmpty = true) := by rw [ht]; simp
  have g2 : hasPfx ccc (strip l) = true := h
  unfold feishuLine
  rw [if_neg g1, if_pos g2]

lemma feishuLine_heading1 {l : Line} (h : hasPfx h1m l = true) :
    feishuLine l =
      ((if (strip (l.drop 2)).isEmpty then [] else [FBlock.h1 (strip (l.drop 2))]),
        FMode.norm) := by
  obtain ⟨t, ht⟩ := hasPfx_head_cons (p := h1m) (by decide) h
  obtain ⟨t2, ht2⟩ := strip_cons_not_sp (t := t) (c := h1m.headD ' ') (by decide)
  have g1 : ¬((strip l).isEmpty = true) := by rw [ht, ht2]; simp
  have g2 : ¬(hasPfx ccc (strip l) = true) := by
    rw [ht, ht2, hasPfx_false_head (q := ccc) (by decide) (by decide)]
    simp
  unfold feishuLine
  rw [if_neg g1, if_neg g2, if_pos h]

lemma feishuLine_heading2 {l : Line} (h : hasPfx h2m l = true) :
    feishuLine l =
      ((if (strip (l.drop 3)).isEmpty then [] else [FBlock.h2 (strip (l.drop 3))]),
        FMode.norm) := by
  obtain ⟨t, ht⟩ := hasPfx_head_cons (p := h2m) (by decide) h
  obtain ⟨t2, ht2⟩ := strip_cons_not_sp (t := t) (c := h2m.headD ' ') (by decide)
  have g1 : ¬((strip l).isEmpty = true) := by rw [ht, ht2]; simp
  have g2 : ¬(hasPfx ccc (strip l) = true) := by
    rw [ht, ht2, hasPfx_false_head (q := ccc) (by decide) (by decide)]
    simp
  have g3 : ¬(hasPfx h1m l = true) := by
    intro hh
    rcases mutual_pfx l h1m h2m hh h with hc | hc <;> revert hc <;> decide
  unfold feishuLine
  rw [if_neg g1, if_neg g2, if_neg g3, if_pos h]

lemma feishuLine_heading3 {l : Line} (h : hasPfx h3m l = true) :
    feishuLine l =
      ((if (strip (l.drop 4)).isEmpty then [] else [FBlock.h3 (strip (l.drop 4))]),
        FMode.norm) := by
  obtain ⟨t, ht⟩ := hasPfx_head_cons (p := h3m) (by decide) h
  obtain ⟨t2, ht2⟩ := strip_cons_not_sp (t := t) (c := h3m.headD ' ') (by decide)
  have g1 : ¬((strip l).isEmpty = true) := by rw [ht, ht2]; simp
  have g2 : ¬(hasPfx ccc (strip l) = true) := by
    rw [ht, ht2, hasPfx_false_head (q := ccc) (by decide) (by decide)]
    simp
  have g3 : ¬(hasPfx h1m l = true) := by
    intro hh
    rcases mutual_pfx l h1m h3m hh h with hc | hc <;> revert hc <;> decide
  have g4 : ¬(hasPfx h2m l = true) := by
    intro hh
    rcases mutual_pfx l h2m h3m hh h with hc | hc <;> revert hc <;> decide
  unfold feishuLine
  rw [if_neg g1, if_neg g2, if_neg g3, if_neg g4, if_pos h]

lemma feishuLine_bullet_case {l : Line} {c : Char} {t : List Char}
    (h : (hasPfx bm1 (strip l) || hasPfx bm2 (strip l)) = true)
    (ht : strip l = c :: t) (_hc : isSp c = false)
    (hc1 : ¬(ccc.headD ' ' = c)) (hc2 : ¬(h1m.headD ' ' = c)) :
    feishuLine l =
      ((if (if hasPfx ckEmpty (strip ((strip l).drop 2)) || hasPfx ckDone (strip ((strip l).drop 2))
            then strip ((strip ((strip l).drop 2)).drop 3)
            else strip ((strip l).drop 2)).isEmpty
        then []
        else [FBlock.bullet
          (if hasPfx ckEmpty (strip ((strip l).drop 2)) || hasPfx ckDone (strip ((strip l).drop 2))
           then strip ((strip ((strip l).drop 2)).drop 3)
           else strip ((strip l).drop 2))]),
        FMode.norm) := by
  have g1 : ¬((strip l).isEmpty = true) := by rw [ht]; simp
  have g2 : ¬(hasPfx ccc (strip l) = true) := by
    rw [ht, hasPfx_false_head (q := ccc) (by decide) hc1]
    simp
  have g3 : ¬(hasPfx h1m l = true) := by
    rw [hasPfx_raw_false ht (q := h1m) (by decide) (by decide) hc2]
    simp
  have g4 : ¬(hasPfx h2m l = true) := by
    rw [hasPfx_raw_false ht (q := h2m) (by decide) (by decide) hc2]
    simp
  have g5 : ¬(hasPfx h3m l = true) := by
    rw [hasPfx_raw_false ht (q := h3m) (by decide) (by decide) hc2]
    simp
  unfold feishuLine
  rw [if_neg g1, if_neg g2, if_neg g3, if_neg g4, if_neg g5, if_pos h]

lemma feishuLine_bullet {l : Line}
    (h : (hasPfx bm1 (strip l) || hasPfx bm2 (strip l)) = true) :
    feishuLine l =
      ((if (if hasPfx ckEmpty (strip ((strip l).drop 2)) || hasPfx ckDone (strip ((strip l).drop 2))
            then strip ((strip ((strip l).drop 2)).drop 3)
            else strip ((strip l).drop 2)).isEmpty
        then []
        else [FBlock.bullet
          (if hasPfx ckEmpty (strip ((strip l).drop 2)) || hasPfx ckDone (strip ((strip l).drop 2))
           then strip ((strip ((strip l).drop 2)).drop 3)
           else strip ((strip l).drop 2))]),
        FMode.norm) := by
  rcases Bool.or_eq_true _ _ |>.mp h with hb | hb
  · obtain ⟨t, ht⟩ := hasPfx_head_cons (p := bm1) (by decide) hb
    exact feishuLine_bullet_case h ht (by decide) (by decide) (by decide)
  · obtain ⟨t, ht⟩ := hasPfx_head_cons (p := bm2) (by decide) hb
    exact feishuLine_bullet_case h ht (by decide) (by decide) (by decide)

lemma feishuLine_quote {l : Line} (h : hasPfx qm (strip l) = true) :
    feishuLine l =
      ((if (strip ((strip l).drop 2)).isEmpty then []
        else [FBlock.quote (strip ((strip l).drop 2))]),
        FMode.norm) := by
  obtain ⟨t, ht⟩ := hasPfx_head_cons (p := qm) (by decide) h
  have g1 : ¬((strip l).isEmpty = true) := by rw [ht]; simp
  have g2 : ¬(hasPfx ccc (strip l) = true) := by
    rw [ht, hasPfx_false_head (q := ccc) (by decide) (by decide)]
    simp
  have g3 : ¬(hasPfx h1m l = true) := by
    rw [hasPfx_raw_false ht (q := h1m) (by decide) (by decide) (by decide)]
    simp
  have g4 : ¬(hasPfx h2m l = true) := by
    rw [hasPfx_raw_false ht (q := h2m) (by decide) (by decide) (by decide)]
    simp
  have g5 : ¬(hasPfx h3m l = true) := by
    rw [hasPfx_raw_false ht (q := h3m) (by decide) (by decide) (by decide)]
    simp
  have g6 : ¬((hasPfx bm1 (strip l) || hasPfx bm2 (strip l)) = true) := by
    rw [ht, hasPfx_false_head (q := bm1) (by decide) (by decide),
        hasPfx_false_head (q := bm2) (by decide) (by decide)]
    simp
  have hdg : isDigit ((strip l).headD ' ') = false := by
    rw [ht]
    simp only [List.headD_cons]
    decide
  have g7 : ¬((!(strip l).isEmpty && isDigit ((strip l).headD ' ') && containsSub dotSp l) = true) := by
    intro hg
    simp only [Bool.and_eq_true] at hg
    rw [hdg] at hg
    simp at hg
  unfold feishuLine
  rw [if_neg g1, if_neg g2, if_neg g3, if_neg g4, if_neg g5, if_neg g6, if_neg g7, if_pos h]

lemma feishuGo_code (rest : List Line) :
    ∀ acc, (∀ x ∈ rest, hasPfx ccc (strip x) = false) →
      feishuGo (FMode.code acc) rest = feishuCodeOut (acc ++ rest) := by
  induction rest with
  | nil => intro acc _; simp [feishuGo, feishuFinish]
  | cons x xs ih =>
    intro acc h
    have hx : ¬(hasPfx ccc (strip x) = true) := by
      rw [h x (by simp)]
      simp
    rw [feishuGo_cons]
    have hstep : feishuStep (FMode.code acc) x = ([], FMode.code (acc ++ [x])) := by
      simp only [feishuStep]
      rw [if_neg hx]
    rw [hstep]
    simp only [List.nil_append]
    rw [ih (acc ++ [x]) (fun y hy => h y (by simp [hy]))]
    congr 1
    simp

lemma notionLine_fence {l : Line} (h : hasPfx ccc l = true) :
    notionLine l =
      ([], NMode.code []
        (if (strip (l.drop 3)).isEmpty then plainTxt else strip (l.drop 3))) := by
  unfold notionLine
  rw [if_pos h]

lemma notionGo_code (rest : List Line) :
    ∀ acc lang, (∀ x ∈ rest, hasPfx ccc x = false) →
      notionGo (NMode.code acc lang) rest = [NBlock.code (joinNL (acc ++ rest)) lang] := by
  induction rest with
  | nil => intro acc lang _; simp [notionGo, notionFinish]
  | cons x xs ih =>
    intro acc lang h
    have hx : ¬(hasPfx ccc x = true) := by
      rw [h x (by simp)]
      simp
    rw [notionGo_cons]
    have hstep : notionStep (NMode.code acc lang) x = ([], NMode.code (acc ++ [x]) lang) := by
      simp only [notionStep]
      rw [if_neg hx]
    rw [hstep]
    simp only [List.nil_append]
    rw [ih (acc ++ [x]) lang (fun y hy => h y (by simp [hy]))]
    congr 2
    simp

lemma isEmpty_nil {x : Line} (h : x.isEmpty = true) : x = [] := by
  cases x with
  | nil => rfl
  | cons c cs => simp at h

/-- A line on which every structural guard of the Feishu converter is false:
such a line reaches the final plain-paragraph branch. -/
def feishuPlain (l : Line) : Prop :=
  (strip l).isEmpty = false
  ∧ hasPfx ccc (strip l) = false
  ∧ hasPfx h1m l = false
  ∧ hasPfx h2m l = false
  ∧ hasPfx h3m l = false
  ∧ (hasPfx bm1 (strip l) || hasPfx bm2 (strip l)) = false
  ∧ (!(strip l).isEmpty && isDigit ((strip l).headD ' ') && containsSub dotSp l) = false
  ∧ hasPfx qm (strip l) = false
  ∧ (strip l == dv1 || strip l == dv2 || strip l == dv3) = false
  ∧ hasChar '|' (strip l) = false

instance (l : Line) : Decidable (feishuPlain l) := by
  unfold feishuPlain
  infer_instance

/-- A line on which every structural guard of the Notion converter is false:
such a line reaches the final plain-paragraph branch. -/
def notionPlain (l : Line) : Prop :=
  hasPfx ccc l = false
  ∧ hasPfx h1m l = false
  ∧ hasPfx h2m l = false
  ∧ hasPfx h3m l = false
  ∧ (hasPfx bm1 l || hasPfx bm2 l) = false
  ∧ (!(l.takeWhile isDigit).isEmpty && hasPfx dotSp (l.dropWhile isDigit)) = false
  ∧ (hasPfx ckEmptySp l || hasPfx ckDoneSp l) = false
  ∧ hasPfx qm l = false
  ∧ (strip l == dv1 || strip l == dv2 || strip l == dv3) = false
  ∧ (hasChar '|' l && hasPfx barPfx (strip l)) = false
  ∧ (strip l).isEmpty = false

instance (l : Line) : Decidable (notionPlain l) := by
  unfold notionPlain
  infer_instance

lemma feishuLine_blank {l : Line} (hb : (strip l).isEmpty = true) :
    feishuLine l = ([], FMode.norm) := by
  unfold feishuLine
  rw [if_pos hb]

lemma feishuLine_plain {l : Line} (hp : feishuPlain l) :
    feishuLine l = ([FBlock.text (strip l)], FMode.norm) := by
  obtain ⟨g1, g2, g3, g4, g5, g6, g7, g8, g9, g10⟩ := hp
  have n1 : ¬((strip l).isEmpty = true) := by simp [g1]
  have n2 : ¬(hasPfx ccc (strip l) = true) := by simp [g2]
  have n3 : ¬(hasPfx h1m l = true) := by simp [g3]
  have n4 : ¬(hasPfx h2m l = true) := by simp [g4]
  have n5 : ¬(hasPfx h3m l = true) := by simp [g5]
  have n6 : ¬((hasPfx bm1 (strip l) || hasPfx bm2 (strip l)) = true) := by rw [g6]; simp
  have n7 : ¬((!(strip l).isEmpty && isDigit ((strip l).headD ' ') && containsSub dotSp l) = true) := by
    rw [g7]
    simp
  have n8 : ¬(hasPfx qm (strip l) = true) := by simp [g8]
  have n9 : ¬((strip l == dv1 || strip l == dv2 || strip l == dv3) = true) := by rw [g9]; simp
  have n10 : ¬(hasChar '|' (strip l) = true) := by simp [g10]
  unfold feishuLine
  rw [if_neg n1, if_neg n2, if_neg n3, if_neg n4, if_neg n5, if_neg n6, if_neg n7,
      if_neg n8, if_neg n9, if_neg n10]

lemma notionLine_blank {l : Line} (hb : (strip l).isEmpty = true) :
    notionLine l = ([], NMode.norm) := by
  have hnil : strip l = [] := isEmpty_nil hb
  have hall : l.all isSp = true := all_sp_of_strip_nil hnil
  have n1 : ¬(hasPfx ccc l = true) := by
    rw [hasPfx_all_sp_false hall (q := ccc) (by decide) (by decide)]
    simp
  have n2 : ¬(hasPfx h1m l = true) := by
    rw [hasPfx_all_sp_false hall (q := h1m) (by decide) (by decide)]
    simp
  have n3 : ¬(hasPfx h2m l = true) := by
    rw [hasPfx_all_sp_false hall (q := h2m) (by decide) (by decide)]
    simp
  have n4 : ¬(hasPfx h3m l = true) := by
    rw [hasPfx_all_sp_false hall (q := h3m) (by decide) (by decide)]
    simp
  have n5 : ¬((hasPfx bm1 l || hasPfx bm2 l) = true) := by
    rw [hasPfx_all_sp_false hall (q := bm1) (by decide) (by decide),
        hasPfx_all_sp_false hall (q := bm2) (by decide) (by decide)]
    simp
  have n6 : ¬((!(l.takeWhile isDigit).isEmpty && hasPfx dotSp (l.dropWhile isDigit)) = true) := by
    rw [takeWhile_digit_all_sp hall]
    simp
  have n7 : ¬((hasPfx ckEmptySp l || hasPfx ckDoneSp l) = true) := by
    rw [hasPfx_all_sp_false hall (q := ckEmptySp) (by decide) (by decide),
        hasPfx_all_sp_false hall (q := ckDoneSp) (by decide) (by decide)]
    simp
  have n8 : ¬(hasPfx qm l = true) := by
    rw [hasPfx_all_sp_false hall (q := qm) (by decide) (by decide)]
    simp
  have n9 : ¬((strip l == dv1 || strip l == dv2 || strip l == dv3) = true) := by
    rw [hnil]
    decide
  have n10 : ¬((hasChar '|' l && hasPfx barPfx (strip l)) = true) := by
    have hb2 : hasPfx barPfx (strip l) = false := by rw [hnil]; decide
    simp [hb2]
  have n11 : ¬((!(strip l).isEmpty) = true) := by simp [hb]
  unfold notionLine
  rw [if_neg n1, if_neg n2, if_neg n3, if_neg n4, if_neg n5, if_neg n6, if_neg n7,
      if_neg n8, if_neg n9, if_neg n10, if_neg n11]

lemma notionLine_plain {l : Line} (hp : notionPlain l) :
    notionLine l = ([NBlock.para l], NMode.norm) := by
  obtain ⟨g1, g2, g3, g4, g5, g6, g7, g8, g9, g10, g11⟩ := hp
  have n1 : ¬(hasPfx ccc l = true) := by simp [g1]
  have n2 : ¬(hasPfx h1m l = true) := by simp [g2]
  have n3 : ¬(hasPfx h2m l = true) := by simp [g3]
  have n4 : ¬(hasPfx h3m l = true) := by simp [g4]
  have n5 : ¬((hasPfx bm1 l || hasPfx bm2 l) = true) := by rw [g5]; simp
  have n6 : ¬((!(l.takeWhile isDigit).isEmpty && hasPfx dotSp (l.dropWhile isDigit)) = true) := by
    rw [g6]
    simp
  have n7 : ¬((hasPfx ckEmptySp l || hasPfx ckDoneSp l) = true) := by rw [g7]; simp
  have n8 : ¬(hasPfx qm l = true) := by simp [g8]
  have n9 : ¬((strip l == dv1 || strip l == dv2 || strip l == dv3) = true) := by rw [g9]; simp
  have n10 : ¬((hasChar '|' l && hasPfx barPfx (strip l)) = true) := by rw [g10]; simp
  have p11 : (!(strip l).isEmpty) = true := by simp [g11]
  unfold notionLine
  rw [if_neg n1, if_neg n2, if_neg n3, if_neg n4, if_neg n5, if_neg n6, if_neg n7,
      if_neg n8, if_neg n9, if_neg n10, if_pos p11]

lemma feishuGo_plain (lines : List Line)
    (h : ∀ l ∈ lines, (strip l).isEmpty = true ∨ feishuPlain l) :
    feishuGo FMode.norm lines
      = (lines.filter (fun l => !(strip l).isEmpty)).map (fun l => FBlock.text (strip l)) := by
  induction lines with
  | nil => rfl
  | cons l ls ih =>
    have hls : ∀ x ∈ ls, (strip x).isEmpty = true ∨ feishuPlain x :=
      fun x hx => h x (by simp [hx])
    rw [feishuGo_cons]
    simp only [feishuStep]
    rcases h l (by simp) with hb | hp
    · rw [feishuLine_blank hb]
      simp only [List.nil_append, List.filter_cons]
      rw [ih hls]
      simp [hb]
    · rw [feishuLine_plain hp]
      simp only [List.filter_cons]
      have hne : (!(strip l).isEmpty) = true := by simp [hp.1]
      rw [ih hls]
      simp [hne]

lemma notionGo_plain (lines : List Line)
    (h : ∀ l ∈ lines, (strip l).isEmpty = true ∨ notionPlain l) :
    notionGo NMode.norm lines
      = (lines.filter (fun l => !(strip l).isEmpty)).map (fun l => NBlock.para l) := by
  induction lines with
  | nil => rfl
  | cons l ls ih =>
    have hls : ∀ x ∈ ls, (strip x).isEmpty = true ∨ notionPlain x :=
      fun x hx => h x (by simp [hx])
    rw [notionGo_cons]
    simp only [notionStep]
    rcases h l (by simp) with hb | hp
    · rw [notionLine_blank hb]
      simp only [List.nil_append, List.filter_cons]
      rw [ih hls]
      simp [hb]
    · rw [notionLine_plain hp]
      simp only [List.filter_cons]
      have hne : (!(strip l).isEmpty) = true := by
        simp [hp.2.2.2.2.2.2.2.2.2.2]
      rw [ih hls]
      simp [hne]

-- ==================== helper lemmas about the project parser ====================

lemma projStep_status {p : Project} {s v : Line}
    (h1 : containsSub kwStatus s = true) (h2 : labelValue kwStatus s = some v) :
    projStep p s = { p with status := v } := by
  unfold projStep
  rw [if_pos h1, h2]

lemma projStep_mod {p : Project} {s v : Line}
    (h0 : containsSub kwStatus s = false)
    (h1 : containsSub kwMod s = true) (h2 : labelValue kwMod s = some v) :
    projStep p s = { p with lastMod := v } := by
  have n0 : ¬(containsSub kwStatus s = true) := by simp [h0]
  unfold projStep
  rw [if_neg n0, if_pos h1, h2]

lemma projStep_git {p : Project} {s v : Line}
    (h0 : containsSub kwStatus s = false) (h0b : containsSub kwMod s = false)
    (h1 : containsSub kwGit s = true) (h2 : labelValue kwGit s = some v) :
    projStep p s = { p with commits := v } := by
  have n0 : ¬(containsSub kwStatus s = true) := by simp [h0]
  have n0b : ¬(containsSub kwMod s = true) := by simp [h0b]
  unfold projStep
  rw [if_neg n0, if_neg n0b, if_pos h1, h2]

lemma projStep_todo {p : Project} {s v : Line}
    (h0 : containsSub kwStatus s = false) (h0b : containsSub kwMod s = false)
    (h0c : containsSub kwGit s = false)
    (h1 : containsSub kwTodo s = true) (h2 : labelValue kwTodo s = some v) :
    projStep p s = { p with todo := v } := by
  have n0 : ¬(containsSub kwStatus s = true) := by simp [h0]
  have n0b : ¬(containsSub kwMod s = true) := by simp [h0b]
  have n0c : ¬(containsSub kwGit s = true) := by simp [h0c]
  unfold projStep
  rw [if_neg n0, if_neg n0b, if_neg n0c, if_pos h1, h2]

lemma projFold_heading {cur : Option Project} {hd : Line} {ls : List Line}
    (h1 : hasPfx h2m (strip hd) = true)
    (h2 : hasPfx exAuto (strip hd) = false) (h3 : hasPfx exManual (strip hd) = false) :
    projFold cur (hd :: ls)
      = (match cur with
         | some p => [p]
         | none => []) ++ projFold (some (newProj (strip ((strip hd).drop 3)))) ls := by
  have hc : (hasPfx h2m (strip hd) && !(hasPfx exAuto (strip hd))
      && !(hasPfx exManual (strip hd))) = true := by
    rw [h1, h2, h3]
    rfl
  conv_lhs => rw [projFold.eq_def]
  dsimp only []
  rw [if_pos hc]

lemma projFold_bullet {p : Project} {l : Line} {ls : List Line}
    (hb : hasPfx bStar (strip l) = true) :
    projFold (some p) (l :: ls) = projFold (some (projStep p (strip l))) ls := by
  obtain ⟨t, ht⟩ := hasPfx_head_cons (p := bStar) (by decide) hb
  have nh : ¬((hasPfx h2m (strip l) && !(hasPfx exAuto (strip l))
      && !(hasPfx exManual (strip l))) = true) := by
    rw [ht, hasPfx_false_head (q := h2m) (by decide) (by decide)]
    simp
  conv_lhs => rw [projFold.eq_def]
  dsimp only []
  rw [if_neg nh]
  rw [if_pos hb]

lemma projFold_final (p : Project) : projFold (some p) [] = [p] := rfl

-- ==================== claim theorems ====================

/-- C1 (counterexample): on the very input named by the claim,
`- [x] Done thing`, the Notion converter emits a bulleted item whose text
still carries the checkbox marker, not the stripped text the claim
requires. -/
theorem c1_counterexample :
    notionMd (lineOf "- [x] Done thing") = [NBlock.bullet (lineOf "[x] Done thing")]
    ∧ lineOf "[x] Done thing" ≠ lineOf "Done thing" := by
  decide

/-- C1 (amended): the Feishu converter strips the `[ ]`/`[x]` marker from a
checkbox bullet before emitting the bullet block, while the Notion
converter's bullet branch precedes its checkbox branch, so a `- `-prefixed
line is always emitted as a bulleted item whose text is the raw line after
the bullet marker, checkbox marker included. -/
theorem c1_amended :
    (∀ l ls, (hasPfx bm1 (strip l) || hasPfx bm2 (strip l)) = true →
      (hasPfx ckEmpty (strip ((strip l).drop 2)) || hasPfx ckDone (strip ((strip l).drop 2))) = true →
      (strip ((strip ((strip l).drop 2)).drop 3)).isEmpty = false →
      feishuBlocks (l :: ls)
        = FBlock.bullet (strip ((strip ((strip l).drop 2)).drop 3)) :: feishuBlocks ls)
    ∧ (∀ l ls, hasPfx bm1 l = true →
      notionBlocks (l :: ls) = NBlock.bullet (l.drop 2) :: notionBlocks ls) := by
  constructor
  · intro l ls hb hck hne
    unfold feishuBlocks
    rw [feishuGo_cons]
    simp only [feishuStep]
    rw [feishuLine_bullet hb]
    rw [if_pos hck]
    have n : ¬((strip ((strip ((strip l).drop 2)).drop 3)).isEmpty = true) := by simp [hne]
    rw [if_neg n]
    rfl
  · intro l ls hb
    unfold notionBlocks
    rw [notionGo_cons]
    simp only [notionStep]
    obtain ⟨t, ht⟩ := hasPfx_head_cons (p := bm1) (by decide) hb
    have n1 : ¬(hasPfx ccc l = true) := by
      rw [ht, hasPfx_false_head (q := ccc) (by decide) (by decide)]
      simp
    have n2 : ¬(hasPfx h1m l = true) := by
      rw [ht, hasPfx_false_head (q := h1m) (by decide) (by decide)]
      simp
    have n3 : ¬(hasPfx h2m l = true) := by
      rw [ht, hasPfx_false_head (q := h2m) (by decide) (by decide)]
      simp
    have n4 : ¬(hasPfx h3m l = true) := by
      rw [ht, hasPfx_false_head (q := h3m) (by decide) (by decide)]
      simp
    have p5 : (hasPfx bm1 l || hasPfx bm2 l) = true := by rw [hb]; rfl
    unfold notionLine
    rw [if_neg n1, if_neg n2, if_neg n3, if_neg n4, if_pos p5]
    rfl

/-- C1 (witness): the amended claim instantiated at the two checkbox items
named by the specification. -/
theorem c1_witness :
    feishuBlocks [lineOf "- [x] Done thing"] = [FBlock.bullet (lineOf "Done thing")]
    ∧ notionBlocks [lineOf "- [ ] Todo"] = [NBlock.bullet (lineOf "[ ] Todo")] := by
  constructor
  · have h := c1_amended.1 (lineOf "- [x] Done thing") [] (by decide) (by decide) (by decide)
    rw [h]
    decide
  · have h := c1_amended.2 (lineOf "- [ ] Todo") [] (by decide)
    rw [h]
    decide

/-- C2: on a document none of whose non-blank lines carries any structural
marker recognised by either converter, both converters emit exactly one
paragraph block per non-blank line, in input order, and blank lines emit
nothing. -/
theorem c2_theorem (md : Line)
    (h : ∀ l ∈ splitNL md, (strip l).isEmpty = true ∨ (feishuPlain l ∧ notionPlain l)) :
    feishuMd md
      = ((splitNL md).filter (fun l => !(strip l).isEmpty)).map (fun l => FBlock.text (strip l))
    ∧ notionMd md
      = ((splitNL md).filter (fun l => !(strip l).isEmpty)).map (fun l => NBlock.para l) := by
  constructor
  · exact feishuGo_plain _ (fun l hl => (h l hl).imp id And.left)
  · exact notionGo_plain _ (fun l hl => (h l hl).imp id And.right)

/-- C2 (witness): the theorem instantiated on a three-line document of plain
prose with one blank line. -/
theorem c2_witness :
    feishuMd (lineOf "hello\n\n  world  ")
      = ((splitNL (lineOf "hello\n\n  world  ")).filter (fun l => !(strip l).isEmpty)).map
          (fun l => FBlock.text (strip l))
    ∧ notionMd (lineOf "hello\n\n  world  ")
      = ((splitNL (lineOf "hello\n\n  world  ")).filter (fun l => !(strip l).isEmpty)).map
          (fun l => NBlock.para l) :=
  c2_theorem (lineOf "hello\n\n  world  ") (by decide)

/-- C3 (counterexample): a lone unterminated opener gives the Feishu
converter an all-whitespace accumulated content, and no `CodeBlock` at all
is emitted; and an opener recognised only after trimming is not an opener
for the Notion converter, which emits paragraphs instead. -/
theorem c3_counterexample :
    feishuMd (lineOf "```") = []
    ∧ notionMd (lineOf "  ```\nx") = [NBlock.para (lineOf "  ```"), NBlock.para (lineOf "x")] := by
  decide

/-- C3 (amended): for an unterminated fence whose opener starts with three
backticks both raw and trimmed, the Notion converter emits exactly one code
block holding all lines after the opener (with the language taken from the
opener), and the Feishu converter does the same unless that content is
whitespace-only, in which case it emits no block for those lines. -/
theorem c3_amended (opener : Line) (rest : List Line)
    (h1 : hasPfx ccc opener = true) (h2 : hasPfx ccc (strip opener) = true)
    (h3 : ∀ x ∈ rest, hasPfx ccc x = false ∧ hasPfx ccc (strip x) = false) :
    feishuBlocks (opener :: rest)
      = (if (strip (joinNL rest)).isEmpty then [] else [FBlock.code (joinNL rest)])
    ∧ notionBlocks (opener :: rest)
      = [NBlock.code (joinNL rest)
          (if (strip (opener.drop 3)).isEmpty then plainTxt else strip (opener.drop 3))] := by
  constructor
  · unfold feishuBlocks
    rw [feishuGo_cons]
    simp only [feishuStep]
    rw [feishuLine_fence h2]
    simp only [List.nil_append]
    rw [feishuGo_code rest [] (fun x hx => (h3 x hx).2)]
    unfold feishuCodeOut
    rw [List.nil_append]
  · unfold notionBlocks
    rw [notionGo_cons]
    simp only [notionStep]
    rw [notionLine_fence h1]
    simp only [List.nil_append]
    rw [notionGo_code rest []
        (if (strip (opener.drop 3)).isEmpty then plainTxt else strip (opener.drop 3))
        (fun x hx => (h3 x hx).1)]
    rw [List.nil_append]

/-- C3 (witness): the amended claim instantiated at an unterminated fence
with one content line. -/
theorem c3_witness :
    feishuBlocks [lineOf "```", lineOf "x"]
      = (if (strip (joinNL [lineOf "x"])).isEmpty then []
         else [FBlock.code (joinNL [lineOf "x"])])
    ∧ notionBlocks [lineOf "```", lineOf "x"]
      = [NBlock.code (joinNL [lineOf "x"])
          (if (strip ((lineOf "```").drop 3)).isEmpty then plainTxt
           else strip ((lineOf "```").drop 3))] :=
  c3_amended (lineOf "```") [lineOf "x"] (by decide) (by decide) (by decide)

/-- C4 (counterexample): a later line containing the one-line-summary label
re-arms the scan, and the qualifying line after it overwrites the summary:
the claim's prediction, the first qualifying line, is not the result. -/
theorem c4_counterexample :
    (parseArchive (lineOf "一句话总结\nfirst\n一句话总结\nsecond")
        (lineOf "doc") (lineOf "2020-01-01")).summary = lineOf "second"
    ∧ lineOf "second" ≠ lineOf "first" := by
  decide

/-- C4 (amended): the summary field of the archive extractor equals the
result of the standalone summary scan in which every line containing the
summary label re-arms the scanner (and is itself skipped), the next
non-empty line not starting with `#` or `---` is stored and disarms it, and
the final value is the last one stored, so later label occurrences do
overwrite the summary. -/
theorem c4_amended : ∀ content stem today,
    (parseArchive content stem today).summary = sumScan (splitNL content) := by
  intro content stem today
  unfold parseArchive sumScan
  dsimp only []
  have h := congrArg Prod.snd (archFold_sum (splitNL content) archInit)
  simpa using h

/-- C5 (counterexample): tags are neither deduplicated nor combined across
lines: a single tag line with a repeated tag keeps the duplicate, and a
second tag line discards the first line's tags entirely. -/
theorem c5_counterexample :
    ((parseArchive (lineOf "标签：#a #a") (lineOf "doc") (lineOf "2020-01-01")).tags
        = [lineOf "a", lineOf "a"]
      ∧ ¬ ((parseArchive (lineOf "标签：#a #a") (lineOf "doc") (lineOf "2020-01-01")).tags).Nodup)
    ∧ ((parseArchive (lineOf "标签：#a\n标签：#b") (lineOf "doc") (lineOf "2020-01-01")).tags
        = [lineOf "b"]
      ∧ lineOf "a" ∉ (parseArchive (lineOf "标签：#a\n标签：#b") (lineOf "doc")
          (lineOf "2020-01-01")).tags) := by
  decide

/-- C5 (amended): the tags field of the archive extractor equals the result
of the standalone tag scan in which every line containing the tag label and
a `#` whose hashtag-run list is nonempty overwrites the tag list (so only
the last such line survives), and the run list itself keeps duplicates. -/
theorem c5_amended :
    (∀ content stem today,
      (parseArchive content stem today).tags = tagScan (splitNL content))
    ∧ findTags (lineOf "标签：#a #a") = [lineOf "a", lineOf "a"] := by
  constructor
  · intro content stem today
    unfold parseArchive tagScan
    dsimp only []
    exact archFold_tags (splitNL content) archInit
  · decide

/-- C6: on a thread file whose section heading is `## 已完成`, the keyword
chain maps the section to the category `已完成`, which is none of the five
options declared for the category field in `TABLES_CONFIG`, so the produced
record violates the claimed five-value enumeration. -/
theorem c6_theorem :
    (parseThreads (lineOf "## 已完成\n- [ ] 任务") (lineOf "2025-05-05")).map Thread.category
      = [catDone]
    ∧ catDone ∉ fiveCategories := by
  decide

/-- C7 (counterexample): the labelled-bullet value is everything after the
first full-width colon following the label, not everything after the last
colon: `- **状态**：a：b` stores `a：b`, while the claim predicts `b`. -/
theorem c7_counterexample :
    parseProjects (lineOf "## P\n- **状态**：a：b")
      = [{ name := lineOf "P", status := lineOf "a：b", lastMod := lineOf "-",
           commits := lineOf "-", todo := lineOf "无" }]
    ∧ lineOf "a：b" ≠ lineOf "b" := by
  decide

/-- C7 (amended): inside an accumulating project, a `- **` line matching one
of the four labels (checked in the order status, last-modified, Git,
todo; label substring anywhere in the stripped line) overwrites that field
with the trimmed text after the first full-width colon `：` that follows
the label and is followed by at least one character; when two lines match
the same label the later line's value wins. -/
theorem c7_amended :
    (∀ hd l v, hasPfx h2m (strip hd) = true → hasPfx exAuto (strip hd) = false →
      hasPfx exManual (strip hd) = false → hasPfx bStar (strip l) = true →
      containsSub kwStatus (strip l) = true → labelValue kwStatus (strip l) = some v →
      projFold none [hd, l] = [{ newProj (strip ((strip hd).drop 3)) with status := v }])
    ∧ (∀ hd l v, hasPfx h2m (strip hd) = true → hasPfx exAuto (strip hd) = false →
      hasPfx exManual (strip hd) = false → hasPfx bStar (strip l) = true →
      containsSub kwStatus (strip l) = false → containsSub kwMod (strip l) = true →
      labelValue kwMod (strip l) = some v →
      projFold none [hd, l] = [{ newProj (strip ((strip hd).drop 3)) with lastMod := v }])
    ∧ (∀ hd l v, hasPfx h2m (strip hd) = true → hasPfx exAuto (strip hd) = false →
      hasPfx exManual (strip hd) = false → hasPfx bStar (strip l) = true →
      containsSub kwStatus (strip l) = false → containsSub kwMod (strip l) = false →
      containsSub kwGit (strip l) = true → labelValue kwGit (strip l) = some v →
      projFold none [hd, l] = [{ newProj (strip ((strip hd).drop 3)) with commits := v }])
    ∧ (∀ hd l v, hasPfx h2m (strip hd) = true → hasPfx exAuto (strip hd) = false →
      hasPfx exManual (strip hd) = false → hasPfx bStar (strip l) = true →
      containsSub kwStatus (strip l) = false → containsSub kwMod (strip l) = false →
      containsSub kwGit (strip l) = false → containsSub kwTodo (strip l) = true →
      labelValue kwTodo (strip l) = some v →
      projFold none [hd, l] = [{ newProj (strip ((strip hd).drop 3)) with todo := v }])
    ∧ (∀ hd l1 l2 v1 v2, hasPfx h2m (strip hd) = true → hasPfx exAuto (strip hd) = false →
      hasPfx exManual (strip hd) = false →
      hasPfx bStar (strip l1) = true → containsSub kwStatus (strip l1) = true →
      labelValue kwStatus (strip l1) = some v1 →
      hasPfx bStar (strip l2) = true → containsSub kwStatus (strip l2) = true →
      labelValue kwStatus (strip l2) = some v2 →
      projFold none [hd, l1, l2] = [{ newProj (strip ((strip hd).drop 3)) with status := v2 }]) := by
  refine ⟨?_, ?_, ?_, ?_, ?_⟩
  · intro hd l v hh ha hm hb hc hv
    rw [projFold_heading hh ha hm, projFold_bullet hb, projStep_status hc hv, projFold_final]
    rfl
  · intro hd l v hh ha hm hb h0 hc hv
    rw [projFold_heading hh ha hm, projFold_bullet hb, projStep_mod h0 hc hv, projFold_final]
    rfl
  · intro hd l v hh ha hm hb h0 h0b hc hv
    rw [projFold_heading hh ha hm, projFold_bullet hb, projStep_git h0 h0b hc hv, projFold_final]
    rfl
  · intro hd l v hh ha hm hb h0 h0b h0c hc hv
    rw [projFold_heading hh ha hm, projFold_bullet hb,
        projStep_todo h0 h0b h0c hc hv, projFold_final]
    rfl
  · intro hd l1 l2 v1 v2 hh ha hm hb1 hc1 hv1 hb2 hc2 hv2
    rw [projFold_heading hh ha hm, projFold_bullet hb1, projStep_status hc1 hv1,
        projFold_bullet hb2, projStep_status hc2 hv2, projFold_final]
    rfl

/-- C7 (witness): the amended claim instantiated on a project with two
status lines; the later one wins and the value is the text after the first
full-width colon. -/
theorem c7_witness :
    projFold none [lineOf "## P", lineOf "- **状态**：x", lineOf "- **状态**：y"]
      = [{ newProj (strip ((strip (lineOf "## P")).drop 3)) with status := lineOf "y" }] :=
  c7_amended.2.2.2.2 (lineOf "## P") (lineOf "- **状态**：x") (lineOf "- **状态**：y")
    (lineOf "x") (lineOf "y") (by decide) (by decide) (by decide) (by decide) (by decide)
    (by decide) (by decide) (by decide) (by decide)

/-- C8 (counterexample): every date-label line overwrites the date, so with
two such lines the extractor returns the second line's date, not the first
line's as the claim requires. -/
theorem c8_counterexample :
    (parseArchive (lineOf "日期：2024-01-01\n日期：2024-02-02")
        (lineOf "doc") (lineOf "2020-01-01")).date = lineOf "2024-02-02"
    ∧ lineOf "2024-02-02" ≠ lineOf "2024-01-01" := by
  decide

/-- C8 (amended): the date field follows the three-step chain with the
label scan taken as an overwriting scan: it is the first date-shaped
substring of the last date-labelled line containing one, regardless of the
filename; otherwise the year-month-day shape extracted from the filename
stem (contiguous or hyphen-separated); otherwise the current date — and a
4-digit stem such as `0315_meeting` does not trigger the filename
fallback. -/
theorem c8_amended :
    (∀ content stem today, (parseArchive content stem today).date
      = (match dateScan (splitNL content) with
         | some d => d
         | none =>
           match stemDate stem with
           | some d => d
           | none => today))
    ∧ stemDate (lineOf "0315_meeting") = none := by
  constructor
  · intro content stem today
    unfold parseArchive dateScan
    dsimp only []
    rw [archFold_date (splitNL content) archInit]
    rfl
  · decide

/-- C9: both block converters, the archive extractor and the thread parser
are total functions of the input text; on empty input the converters return
the empty block sequence, the archive extractor returns the all-default
record (date from the stem-then-today fallback, topic the stem, empty
summary, tags, insights and a zero pending count) and the thread parser
returns no records. -/
theorem c9_theorem :
    feishuMd [] = []
    ∧ notionMd [] = []
    ∧ (∀ stem today, parseArchive [] stem today =
        { date := (match stemDate stem with | some d => d | none => today),
          topic := stem, summary := [], tags := [], insights := [], pending := 0 })
    ∧ (∀ today, parseThreads [] today = []) := by
  exact ⟨rfl, rfl, fun stem today => rfl, fun today => rfl⟩

/-- C10: in the Feishu converter a heading, bullet (checkbox included) or
quote marker line whose remaining text is empty, and an unterminated fence
whose accumulated content is whitespace-only, emit no block at all, so the
block count can be strictly smaller than the non-blank line count. -/
theorem c10_theorem :
    (∀ l ls, hasPfx h1m l = true → (strip (l.drop 2)).isEmpty = true →
      feishuBlocks (l :: ls) = feishuBlocks ls)
    ∧ (∀ l ls, hasPfx h2m l = true → (strip (l.drop 3)).isEmpty = true →
      feishuBlocks (l :: ls) = feishuBlocks ls)
    ∧ (∀ l ls, hasPfx h3m l = true → (strip (l.drop 4)).isEmpty = true →
      feishuBlocks (l :: ls) = feishuBlocks ls)
    ∧ (∀ l ls, (hasPfx bm1 (strip l) || hasPfx bm2 (strip l)) = true →
      (if hasPfx ckEmpty (strip ((strip l).drop 2)) || hasPfx ckDone (strip ((strip l).drop 2))
       then strip ((strip ((strip l).drop 2)).drop 3)
       else strip ((strip l).drop 2)).isEmpty = true →
      feishuBlocks (l :: ls) = feishuBlocks ls)
    ∧ (∀ l ls, hasPfx qm (strip l) = true → (strip ((strip l).drop 2)).isEmpty = true →
      feishuBlocks (l :: ls) = feishuBlocks ls)
    ∧ (∀ l rest, hasPfx ccc (strip l) = true →
      (∀ x ∈ rest, hasPfx ccc (strip x) = false) →
      (strip (joinNL rest)).isEmpty = true →
      feishuBlocks (l :: rest) = [])
    ∧ (feishuMd (lineOf "# \nhello")).length
        < ((splitNL (lineOf "# \nhello")).filter (fun l => !(strip l).isEmpty)).length := by
  refine ⟨?_, ?_, ?_, ?_, ?_, ?_, by decide⟩
  · intro l ls h1 hte
    unfold feishuBlocks
    rw [feishuGo_cons]
    simp only [feishuStep]
    rw [feishuLine_heading1 h1, if_pos hte]
    rfl
  · intro l ls h1 hte
    unfold feishuBlocks
    rw [feishuGo_cons]
    simp only [feishuStep]
    rw [feishuLine_heading2 h1, if_pos hte]
    rfl
  · intro l ls h1 hte
    unfold feishuBlocks
    rw [feishuGo_cons]
    simp only [feishuStep]
    rw [feishuLine_heading3 h1, if_pos hte]
    rfl
  · intro l ls h1 hte
    unfold feishuBlocks
    rw [feishuGo_cons]
    simp only [feishuStep]
    rw [feishuLine_bullet h1, if_pos hte]
    rfl
  · intro l ls h1 hte
    unfold feishuBlocks
    rw [feishuGo_cons]
    simp only [feishuStep]
    rw [feishuLine_quote h1, if_pos hte]
    rfl
  · intro l rest h1 hrest hte
    unfold feishuBlocks
    rw [feishuGo_cons]
    simp only [feishuStep]
    rw [feishuLine_fence h1]
    simp only [List.nil_append]
    rw [feishuGo_code rest [] hrest]
    unfold feishuCodeOut
    rw [List.nil_append, if_pos hte]

/-- C10 (witness): the empty-heading case instantiated at `# `. -/
theorem c10_witness : feishuBlocks [lineOf "# "] = feishuBlocks [] :=
  c10_theorem.1 (lineOf "# ") [] (by decide) (by decide)
